import Mathlib

set_option autoImplicit false

namespace Thingbuf

/-!
Shallow embedding of the core of the `thingbuf` MPSC channel.

The repository provides `src/mpsc/async_impl.rs` (the async façade),
`src/static_thingbuf.rs` (the static ring-buffer front end) and `src/loom.rs`
(test plumbing).  The `Core` ring algorithm, the `Slot`/`Ref` types, the
intrusive wait queue and `Inner` are declared by the façade but their code is
not in the repository snapshot; those parts are modelled from the
specification (doc comments below say exactly which).  Machine integers are
modelled as `Nat`; the spec guarantees that index words wrap cleanly, so the
monotonic counters are kept unbounded.
-/

/-! ## Channel bookkeeping (Sender/Receiver, src/mpsc/async_impl.rs) -/

/-- Channel-level shared state seen by `Sender`/`Receiver` handles.
`tx_count` is the producer reference count, `coreClosed` the closed flag of
the ring, `rxWaitTxClosed` records that `rx_wait.close_tx()` ran,
`rxWaiting`/`rxWoken` are the parked consumer tokens and the wake events
issued so far (in order). -/
structure Chan where
  tx_count : Nat
  coreClosed : Bool
  rxWaitTxClosed : Bool
  rxWaiting : List Nat
  rxWoken : List Nat
deriving Repr, DecidableEq

/-- Modelled from the spec: `Inner::new` is not in the snapshot; the spec says
`Inner` owns `tx_count`, an atomic producer reference count, and `channel()`
returns one `Sender`, so the count starts at 1.  Both waiter lists start
empty and the channel starts open. -/
def newChan : Chan :=
  { tx_count := 1
    coreClosed := false
    rxWaitTxClosed := false
    rxWaiting := []
    rxWoken := [] }

/-- `Sender::clone` (src/mpsc/async_impl.rs): `tx_count.fetch_add(1, Relaxed)`. -/
def cloneSender (s : Chan) : Chan :=
  { s with tx_count := s.tx_count + 1 }

/-- `Receiver::is_closed` (src/mpsc/async_impl.rs):
`self.inner.tx_count.load(Ordering::SeqCst) <= 1`. -/
def Receiver.is_closed (s : Chan) : Bool :=
  decide (s.tx_count ≤ 1)

/-- Atomic-level events performed by `<Sender as Drop>::drop`, in program
order. -/
inductive DropEv where
  | fetchSub
  | fenceSeqCst
  | coreClose
  | closeTx
deriving Repr, DecidableEq

/-- `<Sender as Drop>::drop` (src/mpsc/async_impl.rs): decrement `tx_count`;
if the previous value was greater than 1, return.  Otherwise issue a SeqCst
fence, close the core, and call `rx_wait.close_tx()` (modelled from the spec
as: mark the consumer wait queue closed and wake every parked consumer).
The second component is the trace of events, in order. -/
def dropSender (s : Chan) : Chan × List DropEv :=
  if s.tx_count > 1 then
    ({ s with tx_count := s.tx_count - 1 }, [.fetchSub])
  else
    ({ s with
        tx_count := s.tx_count - 1
        coreClosed := true
        rxWaitTxClosed := true
        rxWaiting := []
        rxWoken := s.rxWoken ++ s.rxWaiting },
      [.fetchSub, .fenceSeqCst, .coreClose, .closeTx])

/-! ## Sender::send and Receiver::poll_recv (src/mpsc/async_impl.rs) -/

/-- Outcome of awaiting `send_ref`: a reference to a claimed slot (holding its
current contents) or `Closed`. -/
inductive SendRefRes (T : Type) where
  | ok (slot : T)
  | closedErr
deriving Repr, DecidableEq

/-- Result of `Sender::send`; `closedWith v` is `Err(Closed(v))`. -/
inductive SendResult (T : Type) where
  | ok
  | closedWith (val : T)
deriving Repr, DecidableEq

/-- `Sender::send` (src/mpsc/async_impl.rs): on `Err(Closed(()))` return
`Err(Closed(val))`; on `Ok(slot)` write `val` through the ref and return
`Ok(())`.  The second component is the slot contents afterwards (`none` when
no slot was claimed). -/
def Sender.send {T : Type} (refRes : SendRefRes T) (val : T) :
    SendResult T × Option T :=
  match refRes with
  | .closedErr => (.closedWith val, none)
  | .ok _slot => (.ok, some val)

/-- Result of `poll_recv_ref`: pending, end-of-stream, or a slot holding a
value. -/
inductive RecvPoll (T : Type) where
  | pending
  | readyNone
  | readySome (v : T)
deriving Repr, DecidableEq

/-- `core::mem::take` as used by `poll_recv`: returns the slot contents and
leaves the default value behind.  First component is the value taken, second
the new slot contents. -/
def memTake {T : Type} (dflt v : T) : T × T := (v, dflt)

/-- `Receiver::poll_recv` (src/mpsc/async_impl.rs): map `mem::take` over a
successful `poll_recv_ref`.  First component is the poll result (carrying the
value taken), second the slot contents afterwards (`none` when no slot was
touched). -/
def Receiver.poll_recv {T : Type} (dflt : T) (r : RecvPoll T) :
    RecvPoll T × Option T :=
  match r with
  | .pending => (.pending, none)
  | .readyNone => (.readyNone, none)
  | .readySome v =>
    let p := memTake dflt v
    (.readySome p.fst, some p.snd)

/-! ## Waker registration in SendRefFuture::poll (src/mpsc/async_impl.rs) -/

/-- Wakers are identified by the task they wake. -/
abbrev Waker := Nat

/-- `Waker::will_wake`: the stored waker would wake the same task as the
other waker. -/
def willWake (w other : Waker) : Bool := w == other

/-- The waker-registration closure of `SendRefFuture::poll`
(src/mpsc/async_impl.rs): if the node already stores a waker that will wake
the current context, keep it; otherwise store a clone of the current waker. -/
def registerWaker (stored : Option Waker) (cur : Waker) : Option Waker :=
  let ww :=
    match stored with
    | some w => willWake w cur
    | none => false
  if ww then stored else some cur

/-! ## Wait queue and SendRefFuture cancellation -/

/-- State of one intrusive waiter node: never linked, currently linked, or
popped by a notifier whose wakeup has not been consumed yet. -/
inductive WState where
  | idle
  | queued
  | notified
deriving Repr, DecidableEq

/-- One waiter node. -/
structure Waiter where
  id : Nat
  state : WState
deriving Repr, DecidableEq

/-- Modelled from the spec: the intrusive `WaitQueue` of `wait::queue` is not
in the snapshot.  `elems` are the linked waiter ids in notification order;
`woken` is the list of wake events issued so far, most recent first. -/
structure WaitQ where
  elems : List Nat
  woken : List Nat
deriving Repr, DecidableEq

/-- Modelled from the spec: `notify_one` pops the head of the queue, takes
its token and wakes it. -/
def notifyOne (q : WaitQ) : WaitQ :=
  match q.elems with
  | [] => q
  | w :: rest => { elems := rest, woken := w :: q.woken }

/-- Modelled from the spec: `Waiter::remove` for cancellation — unlink the
node if it is still linked; if the node had been handed a notification not
yet consumed, re-notify another waiter of the same class; otherwise do
nothing (idempotent). -/
def removeWaiter (q : WaitQ) (w : Waiter) : WaitQ :=
  match w.state with
  | .queued => { q with elems := q.elems.erase w.id }
  | .notified => notifyOne q
  | .idle => q

/-- The drop-relevant state of a `SendRefFuture`: the `has_been_queued` flag
and the embedded waiter node. -/
structure SendRefFut where
  hasBeenQueued : Bool
  waiter : Waiter
deriving Repr, DecidableEq

/-- `SendRefFuture::poll` on a `Ready` result (src/mpsc/async_impl.rs):
`*this.has_been_queued = false`, so the later drop will not touch the
queue. -/
def pollCompleted (f : SendRefFut) : SendRefFut :=
  { f with hasBeenQueued := false }

/-- `<SendRefFuture as PinnedDrop>::drop` (src/mpsc/async_impl.rs): if
`has_been_queued`, call `waiter.remove(&tx_wait)`; otherwise do nothing. -/
def dropSendRefFuture (q : WaitQ) (f : SendRefFut) : WaitQ :=
  if f.hasBeenQueued then removeWaiter q f.waiter else q

/-! ## The ring (spec-modelled Core) and StaticThingBuf -/

/-- Modelled from the spec: the `Core` ring state — `Core` itself is not in
the snapshot.  `cap` is the (power-of-two rounded) capacity, `head`/`tail`
the monotonic index counters, `gens i` the generation of slot `i`
(initialized to `i`), `pw`/`pr` the claim counters of outstanding
write-refs/read-refs (each `Ref` carries the counter it was claimed at), and
`closed` the closed flag. -/
structure Ring where
  cap : Nat
  head : Nat
  tail : Nat
  gens : Nat → Nat
  pw : List Nat
  pr : List Nat
  closed : Bool

/-- Pointwise function update. -/
def updFn (f : Nat → Nat) (i v : Nat) : Nat → Nat :=
  fun j => if j = i then v else f j

/-- Modelled from the spec: `Core::new` style initial ring — slot `i` starts
writable on lap 0 at generation `i`; indices start at 0; channel open. -/
def Ring.init (cap : Nat) : Ring :=
  { cap := cap
    head := 0
    tail := 0
    gens := fun i => i
    pw := []
    pr := []
    closed := false }

/-- The state-changing atomic events of the ring algorithm.  `pushClaim` is
the successful tail CAS of `push_ref`; `pushPublish c` is the drop of the
write-ref claimed at counter `c` (stores `c + 1`); `popClaim` is the head
advance of `pop_ref`; `popRelease c` is the drop of the read-ref claimed at
counter `c` (stores `c + cap`). -/
inductive RingOp where
  | pushClaim
  | pushPublish (c : Nat)
  | popClaim
  | popRelease (c : Nat)
deriving Repr, DecidableEq

/-- Modelled from the spec: one atomic event of the ring algorithm (§4.1).
A claim whose guard fails (ring full/empty, or a foreign `Ref` counter)
changes nothing. -/
def Ring.step (s : Ring) : RingOp → Ring
  | .pushClaim =>
    if s.gens (s.tail % s.cap) = s.tail then
      { s with tail := s.tail + 1, pw := s.tail :: s.pw }
    else s
  | .pushPublish c =>
    if c ∈ s.pw then
      { s with gens := updFn s.gens (c % s.cap) (c + 1), pw := s.pw.erase c }
    else s
  | .popClaim =>
    if s.gens (s.head % s.cap) = s.head + 1 then
      { s with head := s.head + 1, pr := s.head :: s.pr }
    else s
  | .popRelease c =>
    if c ∈ s.pr then
      { s with gens := updFn s.gens (c % s.cap) (c + s.cap), pr := s.pr.erase c }
    else s

/-- Run a sequence of ring events. -/
def Ring.run (s : Ring) : List RingOp → Ring
  | [] => s
  | op :: ops => Ring.run (s.step op) ops

/-- Modelled from the spec: `Core::len` / `StaticThingBuf::len` — the number
of occupied slots, `tail − head` in wrap-aware arithmetic (invariant I3). -/
def Ring.len (s : Ring) : Nat := s.tail - s.head

/-- One iteration of the producer claim loop (§4.1): `diff == 0` claims,
`diff < 0` is Full (Closed when the closed flag is set), `diff > 0` reloads
and retries. -/
inductive PushPoll where
  | claimed
  | fullErr
  | closedErr
  | respin
deriving Repr, DecidableEq

/-- Modelled from the spec: the case analysis of `Core::push_ref` on
`diff = slot.generation − tail`. -/
def Ring.pushPoll (s : Ring) : PushPoll :=
  let g := s.gens (s.tail % s.cap)
  if g = s.tail then .claimed
  else if g < s.tail then (if s.closed then .closedErr else .fullErr)
  else .respin

/-- `StaticThingBuf::push_ref` (src/static_thingbuf.rs) maps the core error
through `match e { TrySendError::Full(()) => Full(()), _ => unreachable!() }`;
the `unreachable!()` arm is taken exactly when the core reports Closed. -/
def PushPoll.hitsUnreachable : PushPoll → Bool
  | .closedErr => true
  | _ => false

/-- Configuration computed at construction.  `gen_shift` splits an index word
into generation and slot index. -/
structure CoreCfg where
  capacity : Nat
  gen_shift : Nat
deriving Repr, DecidableEq

/-- Modelled from the spec: `Core::new` — capacity must be at least 1 (§9:
reject capacity < 1 at construction); `gen_shift = ceil(log2(capacity))`, so
the internal index arithmetic uses the capacity rounded up to the next power
of two. -/
def Core.new (capacity : Nat) : Option CoreCfg :=
  if capacity = 0 then none
  else some { capacity := capacity, gen_shift := Nat.clog 2 capacity }

/-- Derived mask: the low `gen_shift` bits hold the slot index. -/
def CoreCfg.idx_mask (c : CoreCfg) : Nat := 2 ^ c.gen_shift - 1

/-- Modelled from the spec: `Core::idx_gen` — decompose an index word packed
as `(generation << gen_shift) | slot_index` into `(slot_index, generation)`.
Used by `<StaticThingBuf as Drop>::drop` (src/static_thingbuf.rs). -/
def CoreCfg.idx_gen (c : CoreCfg) (n : Nat) : Nat × Nat :=
  (n &&& c.idx_mask, n >>> c.gen_shift)

/-- `<StaticThingBuf as Drop>::drop` (src/static_thingbuf.rs): the number of
slots whose values are dropped — all `capacity` slots when the tail
generation is positive, otherwise the slots below the tail index. -/
def dropNumSlots (c : CoreCfg) (tail : Nat) : Nat :=
  let p := c.idx_gen tail
  if p.snd > 0 then c.capacity else p.fst

/-- The model of a `StaticThingBuf<T, CAP>` construction result. -/
structure SBuf where
  CAP : Nat
  core : CoreCfg
deriving Repr, DecidableEq

/-- `StaticThingBuf::new` (src/static_thingbuf.rs): `Core::new(CAP)` plus a
`CAP`-long slot array. -/
def StaticThingBuf.new (CAP : Nat) : Option SBuf :=
  (Core.new CAP).map fun c => { CAP := CAP, core := c }

/-- `StaticThingBuf::capacity` (src/static_thingbuf.rs): returns `CAP`. -/
def SBuf.capacity (b : SBuf) : Nat := b.CAP

/-! ## Helper lemmas -/

theorem mod_cases {n a b : Nat} (hab : a ≤ b) (h : a % n = b % n) :
    b = a ∨ a + n ≤ b := by
  obtain ⟨k, hk⟩ := (Nat.modEq_iff_dvd' hab).mp h
  match k, hk with
  | 0, hk => left; omega
  | k + 1, hk =>
    right
    have hn : n ≤ n * (k + 1) := Nat.le_mul_of_pos_right n (Nat.succ_pos k)
    omega

theorem ne_of_mod_ne {n a b : Nat} (h : a % n ≠ b % n) : a ≠ b :=
  fun e => h (by rw [e])

/-! ## Claim C1: Receiver::is_closed -/

/-- C1 counterexample: immediately after `channel()` there is exactly one live
`Sender` (`tx_count = 1`) and the `Receiver` has not been dropped, yet
`Receiver::is_closed()` already returns `true` — the claim demands `false`
whenever at least one `Sender` is alive. -/
theorem C1_is_closed_cex :
    Receiver.is_closed newChan = true ∧ newChan.tx_count = 1 :=
  ⟨rfl, rfl⟩

/-- C1 amended: `Receiver::is_closed()` returns `true` iff the producer
reference count is at most 1, i.e. once all senders are dropped but also
while exactly one `Sender` is still alive; it returns `false` only while two
or more senders are alive. -/
theorem C1_is_closed_amended (s : Chan) :
    Receiver.is_closed s = true ↔ s.tx_count ≤ 1 := by
  simp [Receiver.is_closed]

/-! ## Claim C3: dropping a Sender -/

/-- C3: dropping a `Sender` always decrements `tx_count`; it closes the core,
closes the consumer wait queue and wakes every parked consumer exactly when
it is the last sender (the decrement takes `tx_count` from 1 to 0), with the
SeqCst fence event strictly before the close events in the trace; dropping a
non-last sender only decrements the count and leaves the channel open and
the wait queue untouched. -/
theorem C3_drop_sender (s : Chan) (hopen : s.coreClosed = false) :
    (dropSender s).1.tx_count = s.tx_count - 1
    ∧ (s.tx_count = 1 →
        (dropSender s).1.coreClosed = true
        ∧ (dropSender s).1.rxWaitTxClosed = true
        ∧ (dropSender s).1.rxWaiting = []
        ∧ (dropSender s).1.rxWoken = s.rxWoken ++ s.rxWaiting
        ∧ (dropSender s).2 = [.fetchSub, .fenceSeqCst, .coreClose, .closeTx])
    ∧ (2 ≤ s.tx_count →
        (dropSender s).1.coreClosed = false
        ∧ (dropSender s).1.rxWaitTxClosed = s.rxWaitTxClosed
        ∧ (dropSender s).1.rxWaiting = s.rxWaiting
        ∧ (dropSender s).1.rxWoken = s.rxWoken
        ∧ (dropSender s).2 = [.fetchSub]) := by
  by_cases h : s.tx_count > 1
  · refine ⟨by simp [dropSender, h], fun h1 => absurd h (by omega), fun _ => ?_⟩
    simp [dropSender, h, hopen]
  · refine ⟨by simp [dropSender, h], fun _ => ?_, fun h2 => absurd h (by omega)⟩
    simp [dropSender, h]

/-- C3 witness: a concrete last-sender drop. -/
theorem C3_drop_sender_witness :
    (⟨1, false, false, [7], []⟩ : Chan).coreClosed = false
    ∧ ((dropSender ⟨1, false, false, [7], []⟩).1.coreClosed = true
        ∧ (dropSender ⟨1, false, false, [7], []⟩).1.rxWaitTxClosed = true
        ∧ (dropSender ⟨1, false, false, [7], []⟩).1.rxWaiting = []
        ∧ (dropSender ⟨1, false, false, [7], []⟩).1.rxWoken = [] ++ [7]
        ∧ (dropSender ⟨1, false, false, [7], []⟩).2
            = [.fetchSub, .fenceSeqCst, .coreClose, .closeTx]) :=
  ⟨rfl, (C3_drop_sender ⟨1, false, false, [7], []⟩ rfl).2.1 rfl⟩

/-! ## Claim C4: Sender::send -/

/-- C4: for every value `v`, `Sender::send(v)` either moves `v` into the
claimed slot and returns `Ok(())`, or returns `Err(Closed(v))` carrying back
exactly `v` without touching any slot; no other outcome exists. -/
theorem C4_send (T : Type) (refRes : SendRefRes T) (val : T) :
    Sender.send refRes val = (.ok, some val)
    ∨ Sender.send refRes val = (.closedWith val, none) := by
  cases refRes with
  | ok slot => exact Or.inl rfl
  | closedErr => exact Or.inr rfl

/-! ## Claim C7: poll_recv replaces the slot value with the default -/

/-- C7: a successful `Receiver::poll_recv` moves the value out of the slot
and leaves `T::default()` behind, so the slot stays initialized; a pending
poll or end-of-stream touches no slot. -/
theorem C7_poll_recv (T : Type) (dflt v : T) :
    Receiver.poll_recv dflt (.readySome v) = (.readySome v, some dflt)
    ∧ Receiver.poll_recv dflt (.pending) = (.pending, none)
    ∧ Receiver.poll_recv (T := T) dflt .readyNone = (.readyNone, none) :=
  ⟨rfl, rfl, rfl⟩

/-! ## Claim C8: dropping a SendRefFuture -/

/-- C8: dropping a `SendRefFuture` whose waiter node was enqueued unlinks the
node from `tx_wait` (and, if the node had been handed an unconsumed
notification, re-notifies the next waiter); dropping a future that was never
enqueued, or that completed (poll returned `Ready`, resetting
`has_been_queued`), leaves the queue untouched. -/
theorem C8_drop_send_ref_future (q : WaitQ) (f : SendRefFut) :
    (f.hasBeenQueued = false → dropSendRefFuture q f = q)
    ∧ (f.hasBeenQueued = true → f.waiter.state = .queued →
        (dropSendRefFuture q f).elems = q.elems.erase f.waiter.id
        ∧ (dropSendRefFuture q f).woken = q.woken)
    ∧ (f.hasBeenQueued = true → f.waiter.state = .notified →
        ∀ w rest, q.elems = w :: rest →
          (dropSendRefFuture q f).elems = rest
          ∧ (dropSendRefFuture q f).woken = w :: q.woken)
    ∧ dropSendRefFuture q (pollCompleted f) = q := by
  refine ⟨fun h => by simp [dropSendRefFuture, h], ?_, ?_, ?_⟩
  · intro hq hst
    simp [dropSendRefFuture, hq, removeWaiter, hst]
  · intro hq hst w rest helems
    simp [dropSendRefFuture, hq, removeWaiter, hst, notifyOne, helems]
  · simp [dropSendRefFuture, pollCompleted]

/-- C8 witness: concrete drops of a queued and a notified pending future. -/
theorem C8_drop_send_ref_future_witness :
    ((dropSendRefFuture ⟨[5, 7], []⟩ ⟨true, 5, .queued⟩).elems = [7]
      ∧ (dropSendRefFuture ⟨[5, 7], []⟩ ⟨true, 5, .queued⟩).woken = [])
    ∧ ((dropSendRefFuture ⟨[9], []⟩ ⟨true, 5, .notified⟩).elems = []
      ∧ (dropSendRefFuture ⟨[9], []⟩ ⟨true, 5, .notified⟩).woken = [9])
    ∧ dropSendRefFuture ⟨[9], []⟩ ⟨false, 5, .idle⟩ = ⟨[9], []⟩ := by
  have h1 := (C8_drop_send_ref_future ⟨[5, 7], []⟩ ⟨true, 5, .queued⟩).2.1 rfl rfl
  have h2 :=
    (C8_drop_send_ref_future ⟨[9], []⟩ ⟨true, 5, .notified⟩).2.2.1 rfl rfl 9 [] rfl
  have h3 := (C8_drop_send_ref_future ⟨[9], []⟩ ⟨false, 5, .idle⟩).1 rfl
  exact ⟨⟨by rw [h1.1]; decide, h1.2⟩, ⟨h2.1, h2.2⟩, h3⟩

/-! ## Claim C9: waker registration on repeated polls -/

/-- C9: on each poll of a queued `SendRefFuture`, the stored waker is kept
only when it would wake the current task (`will_wake`); otherwise it is
replaced by the current context's waker.  In every case the waker stored
after the poll wakes the task of the most recent poll context. -/
theorem C9_register_waker (stored : Option Waker) (cur : Waker) :
    (∀ w, stored = some w → willWake w cur = true →
      registerWaker stored cur = stored)
    ∧ ((∀ w, stored = some w → willWake w cur = false) →
      registerWaker stored cur = some cur)
    ∧ ∃ w, registerWaker stored cur = some w ∧ willWake w cur = true := by
  cases stored with
  | none =>
    refine ⟨?_, ?_, ?_⟩
    · intro w h
      cases h
    · intro _
      rfl
    · exact ⟨cur, rfl, by simp [willWake]⟩
  | some w0 =>
    cases hww : willWake w0 cur with
    | true =>
      refine ⟨?_, ?_, ?_⟩
      · intro w h hw
        simp [registerWaker, hww]
      · intro hall
        have h0 := hall w0 rfl
        rw [h0] at hww
        cases hww
      · exact ⟨w0, by simp [registerWaker, hww], hww⟩
    | false =>
      refine ⟨?_, ?_, ?_⟩
      · intro w h hw
        cases h
        rw [hw] at hww
        cases hww
      · intro _
        simp [registerWaker, hww]
      · exact ⟨cur, by simp [registerWaker, hww], by simp [willWake]⟩

/-- C9 witness: a stored waker for another task is replaced by the current
waker. -/
theorem C9_register_waker_witness : registerWaker (some 3) 4 = some 4 := by
  have h := (C9_register_waker (some 3) 4).2.1
  exact h (fun w hw => by cases hw; decide)

/-! ## Claim C10: StaticThingBuf::push_ref never hits unreachable -/

theorem step_closed (s : Ring) (op : RingOp) : (s.step op).closed = s.closed := by
  cases op <;> simp only [Ring.step] <;> split <;> rfl

theorem run_closed (s : Ring) (ops : List RingOp) :
    (s.run ops).closed = s.closed := by
  induction ops generalizing s with
  | nil => rfl
  | cons op ops ih =>
    show (Ring.run (s.step op) ops).closed = s.closed
    rw [ih, step_closed]

/-- C10: a `StaticThingBuf` exposes no close operation, so in every reachable
ring state the closed flag is still unset and the core push can only fail
with `Full`; the `unreachable!()` arm of `StaticThingBuf::push_ref`'s error
mapping (taken only on a `Closed` error) is never executed. -/
theorem C10_push_ref_total (cap : Nat) (ops : List RingOp) :
    ((Ring.run (Ring.init cap) ops).pushPoll).hitsUnreachable = false := by
  have hcl : (Ring.run (Ring.init cap) ops).closed = false := run_closed _ _
  simp only [Ring.pushPoll, hcl, Bool.false_eq_true, if_false]
  split
  · rfl
  · split <;> rfl

/-! ## Claim C6: construction and capacity rounding -/

/-- C6: construction rejects capacity 0; for every `CAP ≥ 1`,
`StaticThingBuf::<T, CAP>::new()` succeeds, `capacity()` reports `CAP`, and
the internal index arithmetic uses `2 ^ gen_shift`, the requested capacity
rounded up to the next power of two (the least power of two that is at least
`CAP`). -/
theorem C6_construction (CAP : Nat) (h : 1 ≤ CAP) :
    StaticThingBuf.new 0 = none
    ∧ ∃ b : SBuf, StaticThingBuf.new CAP = some b
        ∧ b.capacity = CAP
        ∧ CAP ≤ 2 ^ b.core.gen_shift
        ∧ ∀ m : Nat, CAP ≤ 2 ^ m → 2 ^ b.core.gen_shift ≤ 2 ^ m := by
  have hne : CAP ≠ 0 := by omega
  refine ⟨rfl, ⟨CAP, CAP, Nat.clog 2 CAP⟩, ?_, rfl, ?_, ?_⟩
  · simp [StaticThingBuf.new, Core.new, hne]
  · exact Nat.le_pow_clog one_lt_two CAP
  · intro m hm
    exact Nat.pow_le_pow_right (by norm_num)
      ((Nat.le_pow_iff_clog_le one_lt_two).mp hm)

/-- C6 witness: capacity 3 is accepted, reported as 3, and rounded to 4
internally. -/
theorem C6_construction_witness :
    1 ≤ 3
    ∧ (StaticThingBuf.new 0 = none
        ∧ ∃ b : SBuf, StaticThingBuf.new 3 = some b
            ∧ b.capacity = 3
            ∧ 3 ≤ 2 ^ b.core.gen_shift
            ∧ ∀ m : Nat, 3 ≤ 2 ^ m → 2 ^ b.core.gen_shift ≤ 2 ^ m) :=
  ⟨by decide, C6_construction 3 (by decide)⟩

/-! ## Claim C5: values dropped by StaticThingBuf::drop -/

/-- For a power-of-two capacity, the packed-word decomposition is division
with remainder by the capacity. -/
theorem idx_gen_pow (k n : Nat) :
    CoreCfg.idx_gen ⟨2 ^ k, k⟩ n = (n % 2 ^ k, n / 2 ^ k) := by
  unfold CoreCfg.idx_gen CoreCfg.idx_mask
  rw [Nat.and_pow_two_sub_one_eq_mod, Nat.shiftRight_eq_div_pow]

/-- C5: at any reachable tail value `t`, `StaticThingBuf::drop` drops the
values of exactly `min t capacity` slots — all slots once the tail
generation is positive, otherwise the slots below the tail index.  The
dropped indices are exactly the slots some push ever claimed (hence whose
value was initialized), each exactly once (the index list has no
duplicates): no initialized value is leaked and no slot is dropped twice. -/
theorem C5_drop (k : Nat) (cfg : CoreCfg) (hcfg : Core.new (2 ^ k) = some cfg)
    (ops : List RingOp) (t : Nat)
    (_ht : t = (Ring.run (Ring.init (2 ^ k)) ops).tail) :
    dropNumSlots cfg t = min t (2 ^ k)
    ∧ (List.range (dropNumSlots cfg t)).Nodup
    ∧ ∀ i, i < 2 ^ k →
        ((i ∈ List.range (dropNumSlots cfg t)) ↔ ∃ c, c < t ∧ c % 2 ^ k = i) := by
  clear _ht
  have hpos : 0 < 2 ^ k := Nat.pos_pow_of_pos k (by norm_num)
  have hcfg2 : cfg = ⟨2 ^ k, k⟩ := by
    rw [Core.new, if_neg (by omega), Nat.clog_pow 2 k one_lt_two] at hcfg
    exact (Option.some_inj.mp hcfg).symm
  subst hcfg2
  have hnum : dropNumSlots ⟨2 ^ k, k⟩ t = min t (2 ^ k) := by
    simp only [dropNumSlots, idx_gen_pow]
    by_cases hlt : t < 2 ^ k
    · rw [Nat.div_eq_of_lt hlt]
      simp [Nat.mod_eq_of_lt hlt, Nat.min_eq_left (le_of_lt hlt)]
    · push_neg at hlt
      have hdiv : 0 < t / 2 ^ k := Nat.div_pos hlt hpos
      simp [hdiv, Nat.min_eq_right hlt]
  refine ⟨hnum, List.nodup_range _, ?_⟩
  intro i hi
  rw [hnum, List.mem_range]
  constructor
  · intro him
    exact ⟨i, by omega, Nat.mod_eq_of_lt hi⟩
  · rintro ⟨c, hc, hm⟩
    have hle := Nat.mod_le c (2 ^ k)
    omega

/-- C5 witness: capacity 4 after one push claim. -/
theorem C5_drop_witness :
    dropNumSlots ⟨2 ^ 2, 2⟩ (Ring.run (Ring.init (2 ^ 2)) [RingOp.pushClaim]).tail
      = min (Ring.run (Ring.init (2 ^ 2)) [RingOp.pushClaim]).tail (2 ^ 2) := by
  have hc : Core.new (2 ^ 2) = some ⟨2 ^ 2, 2⟩ := by
    rw [Core.new, if_neg (by norm_num), Nat.clog_pow 2 2 one_lt_two]
  exact (C5_drop 2 ⟨2 ^ 2, 2⟩ hc [RingOp.pushClaim] _ rfl).1

/-! ## The ring invariant

Each slot cycles through four phases: writable (W), claimed by a producer but
not yet published (PW), published but not yet claimed by the consumer (R),
and claimed by the consumer but not yet released (PR).  The generation value
of the slot, compared against the monotone `head`/`tail` counters, identifies
the phase; the `pw`/`pr` lists tie the outstanding `Ref`s to their slots. -/

/-- No outstanding write-ref claim is on slot `i`. -/
def noPW (s : Ring) (i : Nat) : Prop := ∀ c ∈ s.pw, c % s.cap ≠ i

/-- No outstanding read-ref claim is on slot `i`. -/
def noPR (s : Ring) (i : Nat) : Prop := ∀ c ∈ s.pr, c % s.cap ≠ i

/-- `g` is the unique outstanding write-ref claim counter on slot `i`. -/
def uniqPW (s : Ring) (i g : Nat) : Prop :=
  g ∈ s.pw ∧ List.count g s.pw = 1 ∧ ∀ c ∈ s.pw, c % s.cap = i → c = g

/-- `g` is the unique outstanding read-ref claim counter on slot `i`. -/
def uniqPR (s : Ring) (i g : Nat) : Prop :=
  g ∈ s.pr ∧ List.count g s.pr = 1 ∧ ∀ c ∈ s.pr, c % s.cap = i → c = g

/-- Phase invariant of slot `i` (see the section comment). -/
def SlotInv (s : Ring) (i : Nat) : Prop :=
  (s.gens i % s.cap = i ∧ s.tail ≤ s.gens i ∧ s.gens i < s.head + s.cap
    ∧ noPW s i ∧ noPR s i)
  ∨ (s.gens i % s.cap = i ∧ s.head ≤ s.gens i ∧ s.gens i < s.tail
    ∧ s.tail ≤ s.gens i + s.cap ∧ uniqPW s i (s.gens i) ∧ noPR s i)
  ∨ (∃ gp, s.gens i = gp + 1 ∧ gp % s.cap = i ∧ s.head ≤ gp ∧ gp < s.tail
    ∧ s.tail ≤ gp + s.cap ∧ noPW s i ∧ noPR s i)
  ∨ (∃ gp, s.gens i = gp + 1 ∧ gp % s.cap = i ∧ gp < s.head
    ∧ s.head ≤ gp + s.cap ∧ s.tail ≤ gp + s.cap ∧ noPW s i ∧ uniqPR s i gp)

/-- The global ring invariant: the occupancy bound plus every slot's phase
invariant. -/
def Inv (s : Ring) : Prop :=
  s.head ≤ s.tail ∧ s.tail ≤ s.head + s.cap ∧ ∀ i, i < s.cap → SlotInv s i

theorem updFn_same (f : Nat → Nat) (i v : Nat) : updFn f i v i = v := by
  simp [updFn]

theorem updFn_other (f : Nat → Nat) (i v j : Nat) (h : j ≠ i) :
    updFn f i v j = f j := by
  simp [updFn, h]

/-- A successful producer claim preserves the invariant (capacity at least
2). -/
theorem pushClaim_preserve (s : Ring) (hcap : 2 ≤ s.cap) (hInv : Inv s)
    (hg : s.gens (s.tail % s.cap) = s.tail) :
    Inv { s with tail := s.tail + 1, pw := s.tail :: s.pw } := by
  obtain ⟨hht, hthc, hslots⟩ := hInv
  have hcap0 : 0 < s.cap := by omega
  have hi : s.tail % s.cap < s.cap := Nat.mod_lt _ hcap0
  have hW : s.gens (s.tail % s.cap) % s.cap = s.tail % s.cap
      ∧ s.gens (s.tail % s.cap) < s.head + s.cap
      ∧ noPW s (s.tail % s.cap) ∧ noPR s (s.tail % s.cap) := by
    rcases hslots (s.tail % s.cap) hi with
      ⟨hmod, htg, hghc, hnw, hnr⟩ | ⟨hmod, hhg, hgt, htgc, hu, hnr⟩ |
      ⟨gp, hge, hmod, hhgp, hgpt, htgp, hnw, hnr⟩ |
      ⟨gp, hge, hmod, hgph, hhgp, htgp, hnw, hur⟩
    · exact ⟨hmod, hghc, hnw, hnr⟩
    · rw [hg] at hgt
      exact absurd hgt (lt_irrefl _)
    · have h1 : s.tail = gp + 1 := by rw [← hg, hge]
      rcases mod_cases (Nat.le_of_lt hgpt) hmod with h2 | h2 <;> omega
    · have hgpt : gp < s.tail := by omega
      have h1 : s.tail = gp + 1 := by rw [← hg, hge]
      rcases mod_cases (Nat.le_of_lt hgpt) hmod with h2 | h2 <;> omega
  obtain ⟨hmod, hghc, hnw, hnr⟩ := hW
  refine ⟨?_, ?_, ?_⟩
  · show s.head ≤ s.tail + 1
    omega
  · show s.tail + 1 ≤ s.head + s.cap
    omega
  intro j hj
  have hj' : j < s.cap := hj
  simp only [SlotInv, noPW, noPR, uniqPW, uniqPR]
  by_cases hj0 : j = s.tail % s.cap
  · subst hj0
    refine Or.inr (Or.inl ⟨hmod, by omega, by omega, by omega, ⟨?_, ?_, ?_⟩, hnr⟩)
    · rw [hg]
      exact List.mem_cons_self _ _
    · have h0 : List.count s.tail s.pw = 0 :=
        List.count_eq_zero.mpr (fun hmem => hnw s.tail hmem rfl)
      rw [hg, List.count_cons_self, h0]
    · intro c hcmem hcm
      rcases List.mem_cons.mp hcmem with rfl | hmem
      · exact hg.symm
      · exact absurd hcm (hnw c hmem)
  · rcases hslots j hj' with
      ⟨hmj, htj, hhj, hnwj, hnrj⟩ | ⟨hmj, hhj, hgj, htj, ⟨hum, huc, huu⟩, hnrj⟩ |
      ⟨gp, hgej, hmj, hhj2, hgj2, htj2, hnwj, hnrj⟩ |
      ⟨gp, hgej, hmj, hgj2, hhj2, htj2, hnwj, hurj⟩
    · have hne : s.gens j ≠ s.tail :=
        ne_of_mod_ne (by rw [hmj]; exact hj0)
      refine Or.inl ⟨hmj, by omega, hhj, ?_, hnrj⟩
      intro c hcmem
      rcases List.mem_cons.mp hcmem with rfl | hmem
      · exact fun e => hj0 e.symm
      · exact hnwj c hmem
    · have hne : s.gens j ≠ s.tail :=
        ne_of_mod_ne (by rw [hmj]; exact hj0)
      have hne2 : s.tail ≠ s.gens j + s.cap :=
        ne_of_mod_ne (by rw [Nat.add_mod_right, hmj]; exact fun e => hj0 e.symm)
      refine Or.inr (Or.inl ⟨hmj, hhj, by omega, by omega, ⟨?_, ?_, ?_⟩, hnrj⟩)
      · exact List.mem_cons_of_mem _ hum
      · rw [List.count_cons_of_ne hne]
        exact huc
      · intro c hcmem hcm
        rcases List.mem_cons.mp hcmem with rfl | hmem
        · exact absurd hcm.symm hj0
        · exact huu c hmem hcm
    · have hne2 : s.tail ≠ gp + s.cap :=
        ne_of_mod_ne (by rw [Nat.add_mod_right, hmj]; exact fun e => hj0 e.symm)
      refine Or.inr (Or.inr (Or.inl ⟨gp, hgej, hmj, hhj2, by omega, by omega, ?_, hnrj⟩))
      intro c hcmem
      rcases List.mem_cons.mp hcmem with rfl | hmem
      · exact fun e => hj0 e.symm
      · exact hnwj c hmem
    · have hne2 : s.tail ≠ gp + s.cap :=
        ne_of_mod_ne (by rw [Nat.add_mod_right, hmj]; exact fun e => hj0 e.symm)
      refine Or.inr (Or.inr (Or.inr ⟨gp, hgej, hmj, hgj2, hhj2, by omega, ?_, hurj⟩))
      intro c hcmem
      rcases List.mem_cons.mp hcmem with rfl | hmem
      · exact fun e => hj0 e.symm
      · exact hnwj c hmem

/-- Publishing an outstanding write-ref preserves the invariant. -/
theorem pushPublish_preserve (s : Ring) (c : Nat) (hcap : 2 ≤ s.cap)
    (hInv : Inv s) (hc : c ∈ s.pw) :
    Inv { s with gens := updFn s.gens (c % s.cap) (c + 1), pw := s.pw.erase c } := by
  obtain ⟨hht, hthc, hslots⟩ := hInv
  have hcap0 : 0 < s.cap := by omega
  have hi : c % s.cap < s.cap := Nat.mod_lt _ hcap0
  obtain ⟨hmod, hhg, hgt, htgc, ⟨hum, huc, huu⟩, hnr⟩ :
      s.gens (c % s.cap) % s.cap = c % s.cap
      ∧ s.head ≤ s.gens (c % s.cap) ∧ s.gens (c % s.cap) < s.tail
      ∧ s.tail ≤ s.gens (c % s.cap) + s.cap
      ∧ uniqPW s (c % s.cap) (s.gens (c % s.cap)) ∧ noPR s (c % s.cap) := by
    rcases hslots (c % s.cap) hi with
      ⟨hmod, htg, hghc, hnw, hnr⟩ | hPW |
      ⟨gp, hge, hmod, hhgp, hgpt, htgp, hnw, hnr⟩ |
      ⟨gp, hge, hmod, hgph, hhgp, htgp, hnw, hur⟩
    · exact absurd rfl (hnw c hc)
    · exact hPW
    · exact absurd rfl (hnw c hc)
    · exact absurd rfl (hnw c hc)
  have hceq : c = s.gens (c % s.cap) := huu c hc rfl
  have hcnt0 : List.count c (s.pw.erase c) = 0 := by
    have h1 : List.count c s.pw = 1 := by rw [hceq]; exact huc
    rw [List.count_erase_self, h1]
  refine ⟨hht, hthc, ?_⟩
  intro j hj
  have hj' : j < s.cap := hj
  simp only [SlotInv, noPW, noPR, uniqPW, uniqPR]
  by_cases hj0 : j = c % s.cap
  · subst hj0
    simp only [updFn_same]
    refine Or.inr (Or.inr (Or.inl ⟨c, rfl, rfl, by omega, by omega, by omega, ?_, hnr⟩))
    intro c2 h2 hm2
    have h2' := List.mem_of_mem_erase h2
    have hc2 : c2 = s.gens (c % s.cap) := huu c2 h2' hm2
    have hc2c : c2 = c := by omega
    rw [hc2c] at h2
    exact absurd h2 (List.count_eq_zero.mp hcnt0)
  · have hgu : updFn s.gens (c % s.cap) (c + 1) j = s.gens j :=
      updFn_other _ _ _ _ hj0
    simp only [hgu]
    rcases hslots j hj' with
      ⟨hmj, htj, hhj, hnwj, hnrj⟩ | ⟨hmj, hhj, hgj, htj, ⟨hum2, huc2, huu2⟩, hnrj⟩ |
      ⟨gp, hgej, hmj, hhj2, hgj2, htj2, hnwj, hnrj⟩ |
      ⟨gp, hgej, hmj, hgj2, hhj2, htj2, hnwj, hurj⟩
    · refine Or.inl ⟨hmj, htj, hhj, ?_, hnrj⟩
      exact fun c2 h2 => hnwj c2 (List.mem_of_mem_erase h2)
    · have hgne : s.gens j ≠ c := by
        intro e
        exact hj0 (by rw [← e, hmj])
      refine Or.inr (Or.inl ⟨hmj, hhj, hgj, htj, ⟨?_, ?_, ?_⟩, hnrj⟩)
      · exact (List.mem_erase_of_ne hgne).mpr hum2
      · rw [List.count_erase_of_ne hgne]
        exact huc2
      · exact fun c2 h2 hm2 => huu2 c2 (List.mem_of_mem_erase h2) hm2
    · refine Or.inr (Or.inr (Or.inl ⟨gp, hgej, hmj, hhj2, hgj2, htj2, ?_, hnrj⟩))
      exact fun c2 h2 => hnwj c2 (List.mem_of_mem_erase h2)
    · refine Or.inr (Or.inr (Or.inr ⟨gp, hgej, hmj, hgj2, hhj2, htj2, ?_, hurj⟩))
      exact fun c2 h2 => hnwj c2 (List.mem_of_mem_erase h2)

/-- A successful consumer claim preserves the invariant. -/
theorem popClaim_preserve (s : Ring) (hcap : 2 ≤ s.cap) (hInv : Inv s)
    (hg : s.gens (s.head % s.cap) = s.head + 1) :
    Inv { s with head := s.head + 1, pr := s.head :: s.pr } := by
  obtain ⟨hht, hthc, hslots⟩ := hInv
  have hcap0 : 0 < s.cap := by omega
  have hi : s.head % s.cap < s.cap := Nat.mod_lt _ hcap0
  have hR : s.head < s.tail ∧ s.tail ≤ s.head + s.cap
      ∧ noPW s (s.head % s.cap) ∧ noPR s (s.head % s.cap) := by
    rcases hslots (s.head % s.cap) hi with
      ⟨hmod, htg, hghc, hnw, hnr⟩ | ⟨hmod, hhg, hgt, htgc, hu, hnr⟩ |
      ⟨gp, hge, hmod, hhgp, hgpt, htgp, hnw, hnr⟩ |
      ⟨gp, hge, hmod, hgph, hhgp, htgp, hnw, hur⟩
    · rw [hg] at hmod
      rcases mod_cases (Nat.le_succ s.head) hmod.symm with h2 | h2 <;> omega
    · rw [hg] at hmod
      rcases mod_cases (Nat.le_succ s.head) hmod.symm with h2 | h2 <;> omega
    · have hgph : gp = s.head := by omega
      exact ⟨by omega, by omega, hnw, hnr⟩
    · exfalso
      omega
  obtain ⟨hht2, hthc2, hnw, hnr⟩ := hR
  refine ⟨?_, ?_, ?_⟩
  · show s.head + 1 ≤ s.tail
    omega
  · show s.tail ≤ s.head + 1 + s.cap
    omega
  intro j hj
  have hj' : j < s.cap := hj
  simp only [SlotInv, noPW, noPR, uniqPW, uniqPR]
  by_cases hj0 : j = s.head % s.cap
  · subst hj0
    refine Or.inr (Or.inr (Or.inr
      ⟨s.head, hg, rfl, by omega, by omega, by omega, hnw, ?_, ?_, ?_⟩))
    · exact List.mem_cons_self _ _
    · have h0 : List.count s.head s.pr = 0 :=
        List.count_eq_zero.mpr (fun hmem => hnr s.head hmem rfl)
      rw [List.count_cons_self, h0]
    · intro c hcmem hcm
      rcases List.mem_cons.mp hcmem with rfl | hmem
      · rfl
      · exact absurd hcm (hnr c hmem)
  · rcases hslots j hj' with
      ⟨hmj, htj, hhj, hnwj, hnrj⟩ | ⟨hmj, hhj, hgj, htj, ⟨hum, huc, huu⟩, hnrj⟩ |
      ⟨gp, hgej, hmj, hhj2, hgj2, htj2, hnwj, hnrj⟩ |
      ⟨gp, hgej, hmj, hgj2, hhj2, htj2, hnwj, hurj⟩
    · refine Or.inl ⟨hmj, htj, by omega, hnwj, ?_⟩
      intro c hcmem
      rcases List.mem_cons.mp hcmem with rfl | hmem
      · exact fun e => hj0 e.symm
      · exact hnrj c hmem
    · have hne : s.gens j ≠ s.head := ne_of_mod_ne (by rw [hmj]; exact hj0)
      refine Or.inr (Or.inl ⟨hmj, by omega, hgj, htj, ⟨hum, huc, huu⟩, ?_⟩)
      intro c hcmem
      rcases List.mem_cons.mp hcmem with rfl | hmem
      · exact fun e => hj0 e.symm
      · exact hnrj c hmem
    · have hne : gp ≠ s.head := ne_of_mod_ne (by rw [hmj]; exact hj0)
      refine Or.inr (Or.inr (Or.inl ⟨gp, hgej, hmj, by omega, hgj2, htj2, hnwj, ?_⟩))
      intro c hcmem
      rcases List.mem_cons.mp hcmem with rfl | hmem
      · exact fun e => hj0 e.symm
      · exact hnrj c hmem
    · have hne2 : s.head ≠ gp + s.cap :=
        ne_of_mod_ne (by rw [Nat.add_mod_right, hmj]; exact fun e => hj0 e.symm)
      have hne3 : gp ≠ s.head := ne_of_mod_ne (by rw [hmj]; exact hj0)
      refine Or.inr (Or.inr (Or.inr
        ⟨gp, hgej, hmj, by omega, by omega, htj2, hnwj, ?_, ?_, ?_⟩))
      · exact List.mem_cons_of_mem _ hurj.1
      · rw [List.count_cons_of_ne hne3]
        exact hurj.2.1
      · intro c hcmem hcm
        rcases List.mem_cons.mp hcmem with rfl | hmem
        · exact absurd hcm.symm hj0
        · exact hurj.2.2 c hmem hcm

/-- Releasing an outstanding read-ref preserves the invariant. -/
theorem popRelease_preserve (s : Ring) (c : Nat) (hcap : 2 ≤ s.cap)
    (hInv : Inv s) (hc : c ∈ s.pr) :
    Inv { s with gens := updFn s.gens (c % s.cap) (c + s.cap), pr := s.pr.erase c } := by
  obtain ⟨hht, hthc, hslots⟩ := hInv
  have hcap0 : 0 < s.cap := by omega
  have hi : c % s.cap < s.cap := Nat.mod_lt _ hcap0
  obtain ⟨gp, hge, hmod, hgph, hhgp, htgp, hnw, hrm, hrc, hru⟩ :
      ∃ gp, s.gens (c % s.cap) = gp + 1 ∧ gp % s.cap = c % s.cap
      ∧ gp < s.head ∧ s.head ≤ gp + s.cap ∧ s.tail ≤ gp + s.cap
      ∧ noPW s (c % s.cap) ∧ uniqPR s (c % s.cap) gp := by
    rcases hslots (c % s.cap) hi with
      ⟨hmod, htg, hghc, hnw, hnr⟩ | ⟨hmod, hhg, hgt, htgc, hu, hnr⟩ |
      ⟨gp, hge, hmod, hhgp, hgpt, htgp, hnw, hnr⟩ | hPR
    · exact absurd rfl (hnr c hc)
    · exact absurd rfl (hnr c hc)
    · exact absurd rfl (hnr c hc)
    · exact hPR
  have hceq : c = gp := hru c hc rfl
  subst hceq
  have hcnt0 : List.count c (s.pr.erase c) = 0 := by
    rw [List.count_erase_self, hrc]
  refine ⟨hht, hthc, ?_⟩
  intro j hj
  have hj' : j < s.cap := hj
  simp only [SlotInv, noPW, noPR, uniqPW, uniqPR]
  by_cases hj0 : j = c % s.cap
  · subst hj0
    simp only [updFn_same]
    refine Or.inl ⟨Nat.add_mod_right _ _, by omega, by omega, hnw, ?_⟩
    intro c2 h2 hm2
    have h2' := List.mem_of_mem_erase h2
    have hc2 := hru c2 h2' hm2
    rw [hc2] at h2
    exact absurd h2 (List.count_eq_zero.mp hcnt0)
  · have hgu : updFn s.gens (c % s.cap) (c + s.cap) j = s.gens j :=
      updFn_other _ _ _ _ hj0
    simp only [hgu]
    rcases hslots j hj' with
      ⟨hmj, htj, hhj, hnwj, hnrj⟩ | ⟨hmj, hhj, hgj, htj, ⟨hum, huc, huu⟩, hnrj⟩ |
      ⟨gp2, hgej, hmj, hhj2, hgj2, htj2, hnwj, hnrj⟩ |
      ⟨gp2, hgej, hmj, hgj2, hhj2, htj2, hnwj, hurj⟩
    · refine Or.inl ⟨hmj, htj, hhj, hnwj, ?_⟩
      exact fun c2 h2 => hnrj c2 (List.mem_of_mem_erase h2)
    · refine Or.inr (Or.inl ⟨hmj, hhj, hgj, htj, ⟨hum, huc, huu⟩, ?_⟩)
      exact fun c2 h2 => hnrj c2 (List.mem_of_mem_erase h2)
    · refine Or.inr (Or.inr (Or.inl ⟨gp2, hgej, hmj, hhj2, hgj2, htj2, hnwj, ?_⟩))
      exact fun c2 h2 => hnrj c2 (List.mem_of_mem_erase h2)
    · have hgne : gp2 ≠ c := by
        intro e
        exact hj0 (by rw [← hmj, e])
      refine Or.inr (Or.inr (Or.inr
        ⟨gp2, hgej, hmj, hgj2, hhj2, htj2, hnwj, ?_, ?_, ?_⟩))
      · exact (List.mem_erase_of_ne hgne).mpr hurj.1
      · rw [List.count_erase_of_ne hgne]
        exact hurj.2.1
      · exact fun c2 h2 hm2 => hurj.2.2 c2 (List.mem_of_mem_erase h2) hm2

/-- Every ring event preserves the invariant. -/
theorem step_inv (s : Ring) (op : RingOp) (hcap : 2 ≤ s.cap) (hInv : Inv s) :
    Inv (s.step op) := by
  cases op with
  | pushClaim =>
    by_cases hg : s.gens (s.tail % s.cap) = s.tail
    · simp only [Ring.step, if_pos hg]
      exact pushClaim_preserve s hcap hInv hg
    · simp only [Ring.step, if_neg hg]
      exact hInv
  | pushPublish c =>
    by_cases hc : c ∈ s.pw
    · simp only [Ring.step, if_pos hc]
      exact pushPublish_preserve s c hcap hInv hc
    · simp only [Ring.step, if_neg hc]
      exact hInv
  | popClaim =>
    by_cases hg : s.gens (s.head % s.cap) = s.head + 1
    · simp only [Ring.step, if_pos hg]
      exact popClaim_preserve s hcap hInv hg
    · simp only [Ring.step, if_neg hg]
      exact hInv
  | popRelease c =>
    by_cases hc : c ∈ s.pr
    · simp only [Ring.step, if_pos hc]
      exact popRelease_preserve s c hcap hInv hc
    · simp only [Ring.step, if_neg hc]
      exact hInv

theorem step_cap (s : Ring) (op : RingOp) : (s.step op).cap = s.cap := by
  cases op <;> simp only [Ring.step] <;> split <;> rfl

theorem run_cap (s : Ring) (ops : List RingOp) : (s.run ops).cap = s.cap := by
  induction ops generalizing s with
  | nil => rfl
  | cons op ops ih =>
    show (Ring.run (s.step op) ops).cap = s.cap
    rw [ih, step_cap]

theorem run_inv (s : Ring) (ops : List RingOp) (hcap : 2 ≤ s.cap) (hInv : Inv s) :
    Inv (s.run ops) := by
  induction ops generalizing s with
  | nil => exact hInv
  | cons op ops ih =>
    show Inv (Ring.run (s.step op) ops)
    refine ih (s.step op) ?_ (step_inv s op hcap hInv)
    rw [step_cap]
    exact hcap

/-- The initial ring satisfies the invariant: every slot is writable on lap
0 at generation equal to its index. -/
theorem init_inv (cap : Nat) : Inv (Ring.init cap) := by
  refine ⟨Nat.le_refl 0, Nat.zero_le _, ?_⟩
  intro i hi
  have hi' : i < cap := hi
  simp only [SlotInv, noPW, noPR, uniqPW, uniqPR, Ring.init]
  exact Or.inl ⟨Nat.mod_eq_of_lt hi', Nat.zero_le _, by omega,
    fun c hcm => absurd hcm (List.not_mem_nil c),
    fun c hcm => absurd hcm (List.not_mem_nil c)⟩

/-! ## Claim C2: the capacity bound -/

/-- C2 counterexample: with capacity 1 the spec's generation encoding
(§4.1, generation step = rounded capacity = 1) confuses a published slot
with a writable one: after one push and its publish, a second push claim
succeeds without any pop, so `len = tail − head = 2` exceeds the capacity 1,
violating invariant I3 as claimed. -/
theorem C2_capacity_one_cex :
    (Ring.run (Ring.init 1)
        [RingOp.pushClaim, RingOp.pushPublish 0, RingOp.pushClaim]).len = 2
    ∧ (Ring.run (Ring.init 1)
        [RingOp.pushClaim, RingOp.pushPublish 0, RingOp.pushClaim]).cap = 1 :=
  ⟨rfl, rfl⟩

/-- C2 amended: whenever the (power-of-two rounded) capacity is at least 2,
in every state reachable by any sequence of push/pop claims, publishes and
releases — with any number of outstanding refs, in any order — the occupancy
`len = tail − head` never exceeds the capacity (invariant I3).  The bound
fails only for capacity 1, where the spec's generation encoding collides. -/
theorem C2_capacity_bound (cap : Nat) (hcap : 2 ≤ cap) (ops : List RingOp) :
    (Ring.run (Ring.init cap) ops).len ≤ cap := by
  have hinv := run_inv (Ring.init cap) ops hcap (init_inv cap)
  have hcapr : (Ring.run (Ring.init cap) ops).cap = cap := run_cap _ _
  obtain ⟨h1, h2, _⟩ := hinv
  show (Ring.run (Ring.init cap) ops).tail - (Ring.run (Ring.init cap) ops).head ≤ cap
  omega

/-- C2 witness: a concrete run at capacity 2. -/
theorem C2_capacity_bound_witness :
    2 ≤ 2 ∧ (Ring.run (Ring.init 2) [RingOp.pushClaim]).len ≤ 2 :=
  ⟨by decide, C2_capacity_bound 2 (by decide) [RingOp.pushClaim]⟩

end Thingbuf
